import Mathlib

/-!
# Verification of the fquery graph query engine against its specification

Shallow embedding of the relevant parts of `fquery` (Python) in Lean 4:

* `fquery/query.py` — the query IR (`QueryableOp`, builder classes);
* `fquery/execute.py` — the execution visitor (`AbstractSyntaxTreeVisitor`)
  and the stream helpers (`union`, `union_dicts`, `union_iters`);
* `fquery/view_model.py` — the `ViewModel` entity record;
* `fquery/cypher_builder.py` — the Cypher transpiler visitor.

Python values that appear in entity maps are embedded as the inductive
`Val`; the `ViewModel` ordered map is embedded as an association list in
insertion order.  Async streams are embedded as the lists of items they
yield; Python library primitives are embedded by their documented
semantics (`itertools.islice(it, 0, n)` as `List.take n`, `async for` +
`yield` loops as structural recursion, `heapq.heapify`/`heappop` drained
to exhaustion as repeated extraction of a minimal element).
-/

namespace FQuery

/-- Embedded Python value stored in an entity map (`int`, `str`, `bool`,
`None`).  Only the cases the queries under study use are embedded. -/
inductive Val where
  | vInt (n : Int)
  | vStr (s : String)
  | vBool (b : Bool)
  | vNone
  deriving DecidableEq, Repr

/-- An entity record: `ViewModel` is an `OrderedDict`, embedded as an
association list in insertion order (keys unique by construction, writes
go through `insertOD` below). -/
abbrev Entity := List (String × Val)

/-- Python dict lookup `d[k]` / `k in d`: first (unique) binding wins. -/
def lookup : Entity → String → Option Val
  | [], _ => none
  | (k, v) :: rest, key => if k = key then some v else lookup rest key

/-- `OrderedDict.__setitem__`: overwrite an existing key in place
(keeping its position), else append at the end. -/
def insertOD : Entity → String → Val → Entity
  | [], key, v => [(key, v)]
  | (k, w) :: rest, key, v =>
    if k = key then (k, v) :: rest else (k, w) :: insertOD rest key v

/-- `ViewModel.IDKEY`. -/
def IDKEY : String := ":id"

/-- `ViewModel.TYPE_KEY`. -/
def TYPE_KEY : String := ":type"

/-- `resolve.VISITED_EDGES_KEY`. -/
def VISITED_EDGES_KEY : String := "__visited_edges__"

/-! ## The IR discriminant (`query.py`, class `QueryableOp`) -/

/-- `QueryableOp(IntEnum)` from `fquery/query.py`, member for member. -/
inductive QueryableOp where
  | INVALID
  | PROJECT
  | WHERE
  | TAKE
  | COUNT
  | LEAF
  | COND
  | EDGE
  | UNION
  | BRANCHED_UNION
  | NEST
  | LET
  | ORDER_BY
  | GROUP_BY
  deriving DecidableEq, Repr

namespace QueryableOp

/-- The `IntEnum` value of each member, as written in the source. -/
def toInt : QueryableOp → Int
  | .INVALID => 0
  | .PROJECT => 1
  | .WHERE => 2
  | .TAKE => 3
  | .COUNT => 4
  | .LEAF => 5
  | .COND => 6
  | .EDGE => 7
  | .UNION => 8
  | .BRANCHED_UNION => 9
  | .NEST => 10
  | .LET => 11
  | .ORDER_BY => 12
  | .GROUP_BY => 13

/-- The Python member name (`op.name`). -/
def name : QueryableOp → String
  | .INVALID => "INVALID"
  | .PROJECT => "PROJECT"
  | .WHERE => "WHERE"
  | .TAKE => "TAKE"
  | .COUNT => "COUNT"
  | .LEAF => "LEAF"
  | .COND => "COND"
  | .EDGE => "EDGE"
  | .UNION => "UNION"
  | .BRANCHED_UNION => "BRANCHED_UNION"
  | .NEST => "NEST"
  | .LET => "LET"
  | .ORDER_BY => "ORDER_BY"
  | .GROUP_BY => "GROUP_BY"

/-- All members of the enum, in source order. -/
def allOps : List QueryableOp :=
  [.INVALID, .PROJECT, .WHERE, .TAKE, .COUNT, .LEAF, .COND, .EDGE,
   .UNION, .BRANCHED_UNION, .NEST, .LET, .ORDER_BY, .GROUP_BY]

end QueryableOp

/-! ## `Query.leaf_type` (`query.py`) -/

/-- `Query.leaf_type`:
`self.__class__.__name__[: len("Query") - 1].lower()` on a `LEAF` node,
`"x"` otherwise.  Strings are manipulated through their character
lists. -/
def leaf_type (className : String) (isLeaf : Bool) : String :=
  if isLeaf then
    String.mk ((className.data.take ("Query".length - 1)).map Char.toLower)
  else "x"

/-- Character-list core of `leaf_type` for a leaf node. -/
def leafTypeChars (name : List Char) : List Char :=
  (name.take ("Query".length - 1)).map Char.toLower

/-- Entity-name convention the predicate author relies on:
`<Entity>Query → <entity lowercased>`. -/
def entityLower (entity : List Char) : List Char :=
  entity.map Char.toLower

/-! ## Execution visitor stream transforms (`execute.py`)

For a plain seed leaf the visitor's `iter` is a one-element stream holding
the dict `{"None": <resolved entities>}`;  every `@nested` operator wraps
`iter` with `apply_func`, which applies the operator's `map_func` to each
value of that dict.  So for a chain of `@nested` operators over a plain
leaf, execution applies the `map_func`s to the entity list in child-first
order.  `execWithOps` is that fold (`AbstractSyntaxTreeVisitor.compute`). -/

/-- `AbstractSyntaxTreeVisitor.compute`: fold a stack of stream
transforms over the original stream, first pushed innermost. -/
def execWithOps (base : List Entity) (ops : List (List Entity → List Entity)) :
    List Entity :=
  ops.foldl (fun gen f => f gen) base

/-- `visit_take`'s `_func`: `aioitertools.islice(it, 0, query._count)`. -/
def visitTakeFunc (count : Nat) (it : List Entity) : List Entity :=
  it.take count

/-- `visit_where`'s `_func`: yield exactly the items satisfying the
compiled predicate (`async for item in it: if query.predicate(item): yield`). -/
def visitWhereFunc (predicate : Entity → Bool) : List Entity → List Entity
  | [] => []
  | x :: xs =>
    if predicate x then x :: visitWhereFunc predicate xs
    else visitWhereFunc predicate xs

/-! ## `heapq` drain (used by `visit_order_by`)

`visit_order_by` builds a list of pairs, heapifies it and pops until
empty.  Draining a binary heap yields the elements in non-decreasing
order of the strict comparison `__lt__` used by `heapq`; among elements
none of which is `<` another the pop order is unspecified, and we embed
the drain as repeated extraction of the earliest minimal element. -/

/-- One `heappop`: extract a minimal element (w.r.t. the Boolean strict
order `lt`), preferring the earliest one, returning it and the rest. -/
def selectMin (lt : α → α → Bool) : α → List α → α × List α
  | a, [] => (a, [])
  | a, b :: l =>
    if lt b a then
      let p := selectMin lt b l
      (p.1, a :: p.2)
    else
      let p := selectMin lt a l
      (p.1, b :: p.2)

/-- Fuel-indexed drain loop (`while heap: heappop`).  Structural in the
fuel so that concrete executions reduce in the kernel. -/
def drainAux (lt : α → α → Bool) : Nat → List α → List α
  | 0, _ => []
  | _ + 1, [] => []
  | n + 1, a :: l =>
    let p := selectMin lt a l
    p.1 :: drainAux lt n p.2

/-- Drain a `heapq` heap built from `l` by popping until empty. -/
def heapDrain (lt : α → α → Bool) (l : List α) : List α :=
  drainAux lt l.length l

/-! ## `visit_order_by` (`execute.py`)

The synchronous path heapifies the pairs `(key(item), item)` and pops:
Python tuple comparison compares the keys first and, on equal keys, the
items themselves — `ViewModel.__lt__` compares `self[":id"] <
other[":id"]`.  The asynchronous path heapifies `(key, index)` pairs
built by `enumerate`, so equal keys are ordered by input position. -/

/-- The `:id` of an entity as an `Int` (`ViewModel.__lt__` reads
`self[":id"]`; entities compared by the engine carry `:id` — a missing
or non-integer id, which would raise in Python, is read as `0`). -/
def entityId (e : Entity) : Int :=
  match lookup e IDKEY with
  | some (.vInt n) => n
  | _ => 0

/-- Python `<` on the pairs `(key(item), item)` used by the sync
`visit_order_by` heap: keys first, then `ViewModel.__lt__` (by `:id`). -/
def ltKeyEntity (p q : Int × Entity) : Bool :=
  p.1 < q.1 || (p.1 = q.1 && entityId p.2 < entityId q.2)

/-- Python `<` on the pairs `(key, index)` used by the async
`visit_order_by` heap. -/
def ltKeyPos (p q : Int × Nat) : Bool :=
  p.1 < q.1 || (p.1 = q.1 && p.2 < q.2)

/-- `visit_order_by`'s `_key_func` (synchronous key): materialize the
upstream, heapify `(key(item), item)`, pop until empty, yield items. -/
def orderBySync (items : List Entity) (key : Entity → Int) : List Entity :=
  (heapDrain ltKeyEntity (items.map (fun x => (key x, x)))).map Prod.snd

/-- The pair list the async `_async_key_func` heapifies:
`[(y, x) for x, y in enumerate(keys)]` with `keys` awaited twice. -/
def asyncPairs (items : List Entity) (key : Entity → Int) : List (Int × Nat) :=
  items.enum.map (fun p => (key p.2, p.1))

/-- `visit_order_by`'s `_async_key_func`: materialize, compute keys
(awaiting twice), heapify `(key, index)`, pop, yield `materialized[index]`. -/
def orderByAsync (items : List Entity) (key : Entity → Int) : List Entity :=
  (heapDrain ltKeyPos (asyncPairs items key)).map (fun p => items.getD p.2 [])

/-! ## `visit_union` (`execute.py`)

`visit_union` collects the child's stream and each subquery's stream,
flattens them (each plain-leaf stream yields the one dict
`{"None": <entities>}`) and folds `union_iters` over the dicts.
`union_iters` materializes each incoming dict and merges it into the
accumulator with `union_dicts`; for a key present on both sides whose
two values are both `Iterable`, `union_dicts` stores
`flatten([x[k], y[k]])` — an *async generator*, which `isinstance(·,
Iterable)` does **not** recognize on a later round, so on the next merge
the newer value simply overwrites it.  We embed the dict values at the
single key `"None"`: `.strict` for a materialized Python list (an
`Iterable`), `.lazyCat` for a `flatten` async generator. -/

/-- Value stored under `"None"` while folding `union_dicts`. -/
inductive UVal where
  | strict (l : List Entity)
  | lazyCat (l : List Entity)
  deriving DecidableEq, Repr

/-- `isinstance(v, Iterable)`: true for Python lists, false for async
generators such as the result of `flatten`. -/
def UVal.isIterable : UVal → Bool
  | .strict _ => true
  | .lazyCat _ => false

/-- The items a value would produce once driven. -/
def UVal.items : UVal → List Entity
  | .strict l => l
  | .lazyCat l => l

/-- `union_dicts` at the key `"None"`: accumulator value on the left
(possibly absent — the fold starts from `result = {}`), freshly
materialized stream on the right.  When both sides hold the key and both
values are `Iterable`, the result is `flatten([x[k], y[k]])`; otherwise
dict concatenation lets the right value overwrite the left. -/
def unionDictsStep : Option UVal → List Entity → Option UVal
  | none, l => some (.strict l)
  | some xv, l =>
    if xv.isIterable then some (.lazyCat (xv.items ++ l))
    else some (.strict l)

/-- `union_iters(flatten(iters))`: fold `union_dicts` over the
materialized per-stream dicts, starting from the empty dict. -/
def visitUnionModel (streams : List (List Entity)) : List Entity :=
  match streams.foldl unionDictsStep none with
  | none => []
  | some v => v.items

/-- The merge the spec (and `visit_union`'s own docstring) describe: the
standalone `union` helper of `execute.py` — `heapq.merge(*its,
reverse=True)` followed by `itertools.groupby` on the `:id` projection —
a descending-`:id` k-way merge keeping one element per id.  Stated here
on two already-descending streams as the reference behaviour. -/
def mergeDescDedup (xs ys : List Entity) : List Entity :=
  dedupGo (xs.length + ys.length) (mergeGo (xs.length + ys.length) xs ys)
where
  /-- Two-way descending merge (`heapq.merge(…, reverse=True)`), fuel
  `|xs| + |ys|` making the recursion structural. -/
  mergeGo : Nat → List Entity → List Entity → List Entity
    | 0, _, _ => []
    | _ + 1, [], ys => ys
    | _ + 1, x :: xs, [] => x :: xs
    | n + 1, x :: xs, y :: ys =>
      if entityId y > entityId x then y :: mergeGo n (x :: xs) ys
      else x :: mergeGo n xs (y :: ys)
  /-- Keep one element per run of equal ids (`itertools.groupby` on the
  id), fuel `|l|`. -/
  dedupGo : Nat → List Entity → List Entity
    | 0, _ => []
    | _ + 1, [] => []
    | _ + 1, [x] => [x]
    | n + 1, x :: y :: rest =>
      if entityId x = entityId y then dedupGo n (x :: rest)
      else x :: dedupGo n (y :: rest)

/-! ## `Query.batch_resolve_objs` and `as_list` (`query.py`)

`batch_resolve_objs` returns `[{str(None): [o for o in (resolve_obj(i)
for i in ids) if o]}]`: the comprehension keeps only *truthy* results,
which drops both `None` and falsy entities (an empty `ViewModel` is a
dict of length 0, hence falsy).  `send()` on an `as_list()` query
materializes that structure and unwraps the list under `"None"`. -/

/-- Python truthiness of a resolver result (`if o`). -/
def truthyRes : Option Entity → Bool
  | none => false
  | some e => !e.isEmpty

/-- `Query.batch_resolve_objs`, value at key `str(None)`: the
comprehension `[o for o in (resolve_obj(i) for i in ids) if o]` as a
recursion over the seed ids. -/
def batchResolveObjs (ids : List Int) (resolve_obj : Int → Option Entity) :
    List Entity :=
  match ids with
  | [] => []
  | i :: rest =>
    match resolve_obj i with
    | none => batchResolveObjs rest resolve_obj
    | some e =>
      if e.isEmpty then batchResolveObjs rest resolve_obj
      else e :: batchResolveObjs rest resolve_obj

/-- `LeafQuery(ids).as_list()` materialized through `send()`: the
resolved (truthy) entities in seed order. -/
def asListLeaf (ids : List Int) (resolve_obj : Int → Option Entity) :
    List Entity :=
  batchResolveObjs ids resolve_obj

/-- A concrete resolver (resolves id 1, returns `None` elsewhere), used
to instantiate the `as_list` length statement. -/
def c8res : Int → Option Entity :=
  fun i => if i = 1 then some [(IDKEY, Val.vInt 1)] else none

/-! ## `ViewModel` equality, hashing and attribute writes
(`view_model.py`) -/

/-- A model of Python `hash` on embedded values; only its congruence
(equal values hash equal) matters below. -/
def valHash : Val → Int
  | .vInt n => n
  | .vStr s => Int.ofNat s.length
  | .vBool b => if b then 1 else 0
  | .vNone => -1

/-- `ViewModel.__eq__`: keyed off `:id` when the left side carries it
(raising `KeyError` — embedded as `none` — when the right side does
not), else plain `dict.__eq__`, i.e. unordered content equality. -/
def viewModelEq (a b : Entity) : Option Bool :=
  match lookup a IDKEY with
  | some ia =>
    match lookup b IDKEY with
    | some ib => some (ia = ib)
    | none => none
  | none => some (dictEqB a b)
where
  /-- `dict.__eq__`: same keys with the same values, order ignored. -/
  dictEqB (a b : Entity) : Bool :=
    a.all (fun p => lookup b p.1 = lookup a p.1) &&
      b.all (fun p => lookup a p.1 = lookup b p.1)

/-- `ViewModel.__hash__`: `hash(self[":id"])` when present, else `0`. -/
def viewModelHash (e : Entity) : Int :=
  match lookup e IDKEY with
  | some v => valHash v
  | none => 0

/-- A `ViewModel` object: its ordered map (the dict contents), its
object attributes (`__dict__`), and the internal `__visited_edges__`
set. -/
structure VMState where
  map : Entity
  attrs : List (String × Val)
  visitedEdges : List String
  deriving Repr

/-- `ViewModel.__setitem__`: `id` is aliased to `:id`, `_type` to
`:type`, and a write to `__visited_edges__` is swallowed (early
`return`); everything else is a plain ordered-dict write. -/
def viewmodel_setitem (e : Entity) (name : String) (v : Val) : Entity :=
  if name = "id" then insertOD e IDKEY v
  else if name = "_type" then insertOD e TYPE_KEY v
  else if name = VISITED_EDGES_KEY then e
  else insertOD e name v

/-- `ViewModel.__setattr__` for a plain value: `super().__setattr__`
(records the object attribute) followed by `self.__setitem__`. -/
def viewmodel_setattr (s : VMState) (name : String) (v : Val) : VMState :=
  { map := viewmodel_setitem s.map name v
    attrs := insertOD s.attrs name v
    visitedEdges := s.visitedEdges }

/-- `self.__visited_edges__ = S` (the write in `__init__`, and any later
rebinding of the visited-edges attribute): `super().__setattr__` stores
the set, then `__setitem__` hits the `VISITED_EDGES_KEY` early return and
leaves the map untouched. -/
def viewmodel_set_visited (s : VMState) (S : List String) : VMState :=
  { map := viewmodel_setitem s.map VISITED_EDGES_KEY (.vNone)
    attrs := s.attrs
    visitedEdges := S }

/-! ## `WhereQueryable.__init__` (`query.py`)

Construction only string-formats `f"lambda {leaf_name}: " +
predicate.value` and `compile`s it: *any* well-formed Python expression
is accepted — no shape check, no operator whitelist.  We embed the space
of well-formed predicate expressions relevant here: a comparison, a bare
attribute reference (`user.age`), and an arithmetic expression
(`user.age + 1`); `compile` succeeds on all of them and the resulting
lambda evaluates the expression's truthiness. -/

/-- The six comparison operators of the mini-language. -/
inductive CmpOp where
  | gt | lt | ge | le | eq | ne
  deriving DecidableEq, Repr

/-- Evaluate a comparison operator on integers. -/
def CmpOp.eval : CmpOp → Int → Int → Bool
  | .gt, a, b => a > b
  | .lt, a, b => a < b
  | .ge, a, b => a ≥ b
  | .le, a, b => a ≤ b
  | .eq, a, b => a = b
  | .ne, a, b => a ≠ b

/-- Well-formed Python predicate expressions over the entity variable:
`entity.field <op> <int literal>`, a bare `entity.field`, or
`entity.field + <int literal>`. -/
inductive PyExpr where
  | cmp (field : String) (op : CmpOp) (rhs : Int)
  | fieldRef (field : String)
  | arith (field : String) (n : Int)
  deriving DecidableEq, Repr

/-- Read an integer field off an entity (missing/non-int reads as 0,
mirroring the examples where fields are integers and present). -/
def getIntField (e : Entity) (field : String) : Int :=
  match lookup e field with
  | some (.vInt n) => n
  | _ => 0

/-- Python truthiness of an integer. -/
def pyTruthyInt (n : Int) : Bool := n ≠ 0

/-- The predicate the compiled lambda computes (`if query.predicate(item)`
in `visit_where` uses the value's truthiness). -/
def PyExpr.predicate : PyExpr → Entity → Bool
  | .cmp field op rhs, e => op.eval (getIntField e field) rhs
  | .fieldRef field, e => pyTruthyInt (getIntField e field)
  | .arith field n, e => pyTruthyInt (getIntField e field + n)

/-- A constructed `WHERE` IR node: the expression and its compiled
predicate. -/
structure WhereNode where
  expr : PyExpr
  predicate : Entity → Bool

/-- `WhereQueryable.__init__`: compile the lambda; construction succeeds
for every well-formed Python expression (`none` would model a
`SyntaxError` from `compile`, which never happens on these). -/
def whereInit (expr : PyExpr) : Option WhereNode :=
  some ⟨expr, expr.predicate⟩

/-- Is the expression of the accepted mini-language form
`<lhs> <op> <rhs>`? -/
def PyExpr.isCmpForm : PyExpr → Bool
  | .cmp _ _ _ => true
  | _ => false

/-! ## Cypher transpiler (`cypher_builder.py`)

The IR subset the transpiled examples use (edge-free chains): a leaf
with a class name and seed ids, wrapped by operators each holding its
`child`. -/

/-- Mini query IR for transpilation: chained builders, child innermost. -/
inductive CQuery where
  | leaf (className : String) (ids : List Int)
  | count (child : CQuery)
  | take (count : Nat) (child : CQuery)
  | project (projector : List String) (child : CQuery)
  deriving Repr

/-- The string form of a comparison operator. -/
def CmpOp.render : CmpOp → String
  | .gt => ">"
  | .lt => "<"
  | .ge => ">="
  | .le => "<="
  | .eq => "=="
  | .ne => "!="

/-- Everything before the first occurrence of `pat` in `l`
(`s.split(pat)[0]`). -/
def beforeSub (pat : List Char) : List Char → List Char
  | [] => []
  | c :: rest =>
    if pat.isPrefixOf (c :: rest) then []
    else c :: beforeSub pat rest

/-- `str.capitalize` on the relevant inputs: upper-case the first
character. -/
def capitalizeChars : List Char → List Char
  | [] => []
  | c :: rest => Char.toUpper c :: rest

/-- `CypherBuilderVisitor.table_from_query`:
`query.__class__.__name__.lower().split("query")[0].capitalize()`. -/
def table_from_query (className : String) : String :=
  String.mk (capitalizeChars (beforeSub "query".data (className.data.map Char.toLower)))

/-- The `CypherBuilderVisitor` fields the modelled subset uses. -/
structure CypherState where
  match_parts : List String
  current_node : String
  where_clauses : List String
  return_clause : String
  order_by_clause : String
  limit_clause : String
  root_label : Option String
  deriving Repr

/-- `CypherBuilderVisitor.__init__`. -/
def CypherState.init : CypherState :=
  { match_parts := []
    current_node := "u"
    where_clauses := []
    return_clause := ""
    order_by_clause := ""
    limit_clause := ""
    root_label := none }

/-- The visitor walk over the modelled IR subset: each `visit_<op>`
first visits the child and then records its clause; `visit_leaf` fixes
the root label and the initial match part. -/
def cypherVisit : CQuery → CypherState → CypherState
  | .leaf className _, s =>
    match s.root_label with
    | none =>
      let label := table_from_query className
      { s with root_label := some label
               match_parts := ["(" ++ s.current_node ++ ":" ++ label ++ ")"] }
    | some _ => s
  | .count child, s =>
    let s := cypherVisit child s
    { s with return_clause := "RETURN count(*)" }
  | .take count child, s =>
    let s := cypherVisit child s
    { s with limit_clause := "LIMIT " ++ toString count }
  | .project projector child, s =>
    let s := cypherVisit child s
    let render := fun (x : String) =>
      if x = IDKEY then s.current_node ++ ".id" else s.current_node ++ "." ++ x
    { s with return_clause :=
        "RETURN " ++ String.intercalate ", " (projector.map render) }

/-- Modelled from the spec: the `to_cypher` terminator on `Query` and
the final clause assembly are not present under `src/` (only the
`CypherBuilderVisitor` clause collection and the tests that call
`q.to_cypher()` are); per the spec the output is "a newline-joined
clause list `MATCH (u:<Class>)` … `WHERE …` `RETURN …` `ORDER BY …`
`LIMIT …`", match parts joined with `-`. -/
def to_cypher (q : CQuery) : String :=
  let s := cypherVisit q CypherState.init
  let lines :=
    ["MATCH " ++ String.intercalate "-" s.match_parts] ++
    (if s.where_clauses.isEmpty then []
     else ["WHERE " ++ String.intercalate " AND " s.where_clauses]) ++
    (if s.return_clause = "" then [] else [s.return_clause]) ++
    (if s.order_by_clause = "" then [] else [s.order_by_clause]) ++
    (if s.limit_clause = "" then [] else [s.limit_clause])
  String.intercalate "\n" lines

/-! ## Supporting lemmas -/

theorem QueryableOp.mem_allOps (o : QueryableOp) : o ∈ QueryableOp.allOps := by
  cases o <;> simp [QueryableOp.allOps]

theorem selectMin_length (lt : α → α → Bool) (a : α) (l : List α) :
    (selectMin lt a l).2.length = l.length := by
  induction l generalizing a with
  | nil => rfl
  | cons b l ih =>
    simp only [selectMin]
    split <;> simp [ih]

theorem selectMin_perm (lt : α → α → Bool) (a : α) (l : List α) :
    List.Perm ((selectMin lt a l).1 :: (selectMin lt a l).2) (a :: l) := by
  induction l generalizing a with
  | nil => simp [selectMin]
  | cons b l ih =>
    simp only [selectMin]
    split
    · exact (List.Perm.swap a (selectMin lt b l).1 (selectMin lt b l).2).trans
        ((ih b).cons a)
    · exact ((List.Perm.swap b (selectMin lt a l).1 (selectMin lt a l).2).trans
        ((ih a).cons b)).trans (List.Perm.swap a b l)

/-- Minimality of the extracted element, for a strict weak order `lt`
(irreflexive, transitive, with transitive incomparability). -/
theorem selectMin_min (lt : α → α → Bool)
    (hirr : ∀ x, lt x x = false)
    (htrans : ∀ x y z, lt x y = true → lt y z = true → lt x z = true)
    (hneg : ∀ x y z, lt x y = false → lt y z = false → lt x z = false)
    (a : α) (l : List α) :
    ∀ x ∈ a :: l, lt x (selectMin lt a l).1 = false := by
  induction l generalizing a with
  | nil =>
    intro x hx
    simp only [List.mem_singleton] at hx
    rw [hx]
    simpa [selectMin] using hirr a
  | cons b l ih =>
    intro x hx
    simp only [selectMin]
    by_cases hba : lt b a = true
    · simp only [hba, if_pos]
      rcases List.mem_cons.1 hx with heq | hx'
      · -- x = a: nothing in b :: l is below the minimum of b :: l, and b < a
        rw [heq]
        have hb := ih b b (List.mem_cons_self b l)
        by_contra hc
        have ham : lt a (selectMin lt b l).1 = true := by
          cases h : lt a (selectMin lt b l).1 with
          | true => rfl
          | false => exact absurd h hc
        have hcontra : lt b (selectMin lt b l).1 = true := htrans b a _ hba ham
        rw [hb] at hcontra
        exact Bool.noConfusion hcontra
      · exact ih b x hx'
    · have hba' : lt b a = false := by
        cases h : lt b a with
        | true => exact absurd h hba
        | false => rfl
      simp only [hba', Bool.false_eq_true, if_neg, Bool.not_eq_true]
      rcases List.mem_cons.1 hx with heq | hx'
      · -- x = a is handled by the recursive minimum over a :: l
        rw [heq]
        exact ih a a (List.mem_cons_self a l)
      · rcases List.mem_cons.1 hx' with heq | hx''
        · -- x = b: lt b a = false and lt a m = false give lt b m = false
          rw [heq]
          have ham := ih a a (List.mem_cons_self a l)
          exact hneg b a _ hba' ham
        · exact ih a x (List.mem_cons.2 (Or.inr hx''))

theorem drainAux_perm (lt : α → α → Bool) :
    ∀ (n : Nat) (l : List α), l.length ≤ n → List.Perm (drainAux lt n l) l := by
  intro n
  induction n with
  | zero =>
    intro l hl
    have : l = [] := List.length_eq_zero.1 (Nat.le_zero.1 hl)
    subst this
    simp [drainAux]
  | succ n ih =>
    intro l hl
    cases l with
    | nil => simp [drainAux]
    | cons a l =>
      simp only [drainAux]
      have hlen : (selectMin lt a l).2.length ≤ n := by
        rw [selectMin_length]
        exact Nat.le_of_succ_le_succ hl
      exact ((ih _ hlen).cons _).trans (selectMin_perm lt a l)

theorem heapDrain_perm (lt : α → α → Bool) (l : List α) :
    List.Perm (heapDrain lt l) l :=
  drainAux_perm lt l.length l (Nat.le_refl _)

/-- Drain output is sorted: no later element is strictly below an
earlier one. -/
theorem drainAux_sorted (lt : α → α → Bool)
    (hirr : ∀ x, lt x x = false)
    (htrans : ∀ x y z, lt x y = true → lt y z = true → lt x z = true)
    (hneg : ∀ x y z, lt x y = false → lt y z = false → lt x z = false) :
    ∀ (n : Nat) (l : List α), l.length ≤ n →
      (drainAux lt n l).Pairwise (fun x y => lt y x = false) := by
  intro n
  induction n with
  | zero => intro l _; simp [drainAux]
  | succ n ih =>
    intro l hl
    cases l with
    | nil => simp [drainAux]
    | cons a l =>
      simp only [drainAux]
      have hlen : (selectMin lt a l).2.length ≤ n := by
        rw [selectMin_length]
        exact Nat.le_of_succ_le_succ hl
      refine List.pairwise_cons.2 ⟨?_, ih _ hlen⟩
      intro y hy
      have hy' : y ∈ (selectMin lt a l).2 :=
        (drainAux_perm lt n _ hlen).mem_iff.1 hy
      have hy'' : y ∈ a :: l :=
        (selectMin_perm lt a l).mem_iff.1 (List.mem_cons.2 (Or.inr hy'))
      exact selectMin_min lt hirr htrans hneg a l y hy''

theorem heapDrain_sorted (lt : α → α → Bool)
    (hirr : ∀ x, lt x x = false)
    (htrans : ∀ x y z, lt x y = true → lt y z = true → lt x z = true)
    (hneg : ∀ x y z, lt x y = false → lt y z = false → lt x z = false)
    (l : List α) :
    (heapDrain lt l).Pairwise (fun x y => lt y x = false) :=
  drainAux_sorted lt hirr htrans hneg l.length l (Nat.le_refl _)

theorem ltKeyEntity_irrefl (p : Int × Entity) : ltKeyEntity p p = false := by
  simp [ltKeyEntity]

theorem ltKeyEntity_trans (p q r : Int × Entity) :
    ltKeyEntity p q = true → ltKeyEntity q r = true → ltKeyEntity p r = true := by
  simp only [ltKeyEntity, Bool.or_eq_true, Bool.and_eq_true, decide_eq_true_eq]
  intro h1 h2
  rcases h1 with h1 | ⟨h1e, h1i⟩ <;> rcases h2 with h2 | ⟨h2e, h2i⟩
  · exact Or.inl (lt_trans h1 h2)
  · exact Or.inl (h2e ▸ h1)
  · exact Or.inl (h1e ▸ h2)
  · exact Or.inr ⟨h1e.trans h2e, lt_trans h1i h2i⟩

theorem ltKeyEntity_negTrans (p q r : Int × Entity) :
    ltKeyEntity p q = false → ltKeyEntity q r = false → ltKeyEntity p r = false := by
  simp only [ltKeyEntity, Bool.or_eq_false_iff, Bool.and_eq_false_iff,
    decide_eq_false_iff_not, not_lt]
  intro h1 h2
  omega

theorem ltKeyPos_irrefl (p : Int × Nat) : ltKeyPos p p = false := by
  simp [ltKeyPos]

theorem ltKeyPos_trans (p q r : Int × Nat) :
    ltKeyPos p q = true → ltKeyPos q r = true → ltKeyPos p r = true := by
  simp only [ltKeyPos, Bool.or_eq_true, Bool.and_eq_true, decide_eq_true_eq]
  intro h1 h2
  rcases h1 with h1 | ⟨h1e, h1i⟩ <;> rcases h2 with h2 | ⟨h2e, h2i⟩
  · exact Or.inl (lt_trans h1 h2)
  · exact Or.inl (h2e ▸ h1)
  · exact Or.inl (h1e ▸ h2)
  · exact Or.inr ⟨h1e.trans h2e, lt_trans h1i h2i⟩

theorem ltKeyPos_negTrans (p q r : Int × Nat) :
    ltKeyPos p q = false → ltKeyPos q r = false → ltKeyPos p r = false := by
  simp only [ltKeyPos, Bool.or_eq_false_iff, Bool.and_eq_false_iff,
    decide_eq_false_iff_not, not_lt]
  intro h1 h2
  omega

theorem lookup_insertOD_self (e : Entity) (k : String) (v : Val) :
    lookup (insertOD e k v) k = some v := by
  induction e with
  | nil => simp [insertOD, lookup]
  | cons p rest ih =>
    by_cases h : p.1 = k
    · simp [insertOD, lookup, h]
    · simp [insertOD, lookup, h, ih]

theorem lookup_insertOD_ne (e : Entity) (k k' : String) (v : Val) (h : k ≠ k') :
    lookup (insertOD e k v) k' = lookup e k' := by
  induction e with
  | nil => simp [insertOD, lookup, h]
  | cons p rest ih =>
    by_cases hp : p.1 = k
    · simp only [insertOD, hp, if_pos]
      simp [lookup, h, hp]
    · simp only [insertOD, hp, if_neg, ne_eq, not_false_iff]
      by_cases hp' : p.1 = k'
      · simp [lookup, hp']
      · simp [lookup, hp', ih]

theorem visitWhereFunc_eq_filter (p : Entity → Bool) (items : List Entity) :
    visitWhereFunc p items = items.filter p := by
  induction items with
  | nil => rfl
  | cons x xs ih =>
    by_cases h : p x <;> simp [visitWhereFunc, List.filter, h, ih]

/-! ## Claim theorems -/

/-- C3.  `q.take(a).take(b)` executes as the composition of the two
`islice` transforms contributed child-first by `visit_take`, and yields
exactly the items of `q.take(min(a, b))`, for every upstream stream
(hence every query and resolver) and all non-negative counts. -/
theorem c3_take_take_exec (base : List Entity) (a b : Nat) :
    execWithOps base [visitTakeFunc a, visitTakeFunc b]
      = execWithOps base [visitTakeFunc (min a b)] := by
  simp only [execWithOps, List.foldl_cons, List.foldl_nil, visitTakeFunc]
  rw [List.take_take, Nat.min_comm]

/-- C9 (counterexample).  `SKIP` and `AGGREGATE` are not names of any
`QueryableOp` member: the enum has fourteen members (including
`INVALID`), so they are not constructible values of the discriminant. -/
theorem c9_skip_aggregate_absent :
    ((QueryableOp.allOps.map QueryableOp.name).contains "SKIP"
      || (QueryableOp.allOps.map QueryableOp.name).contains "AGGREGATE") = false
    ∧ QueryableOp.allOps.length = 14 := by
  decide

/-- C9 (amended).  The IR discriminant `OP` ranges over exactly the
fourteen tags `INVALID, PROJECT, WHERE, TAKE, COUNT, LEAF, COND, EDGE,
UNION, BRANCHED_UNION, NEST, LET, ORDER_BY, GROUP_BY` (in source order,
with `IntEnum` values 0–13); `SKIP` and `AGGREGATE` are not members. -/
theorem c9_ops_amended :
    (∀ o : QueryableOp, o ∈ QueryableOp.allOps)
    ∧ QueryableOp.allOps.map QueryableOp.name =
        ["INVALID", "PROJECT", "WHERE", "TAKE", "COUNT", "LEAF", "COND",
         "EDGE", "UNION", "BRANCHED_UNION", "NEST", "LET", "ORDER_BY",
         "GROUP_BY"]
    ∧ QueryableOp.allOps.map QueryableOp.toInt =
        [0, 1, 2, 3, 4, 5, 6, 7, 8, 9, 10, 11, 12, 13]
    ∧ (∀ o : QueryableOp,
        QueryableOp.name o ≠ "SKIP" ∧ QueryableOp.name o ≠ "AGGREGATE") := by
  refine ⟨QueryableOp.mem_allOps, by decide, by decide, ?_⟩
  intro o
  cases o <;> simp [QueryableOp.name]

/-- C10.  `leaf_type` lowercases the first `len("Query") - 1 = 4`
characters of the class name — `UserQuery → "user"` but
`ReviewQuery → "revi"`, not `"review"` — and for a class named
`<Entity> ++ "Query"` the computed lambda-parameter name coincides with
the lowercased entity name exactly when the entity name has four
characters. -/
theorem c10_leaf_type :
    leaf_type "UserQuery" true = "user"
    ∧ leaf_type "ReviewQuery" true = "revi"
    ∧ leaf_type "ReviewQuery" true ≠ "review"
    ∧ (∀ entity : List Char,
        leafTypeChars (entity ++ "Query".data) = entityLower entity
          ↔ entity.length = 4) := by
  refine ⟨by decide, by decide, by decide, ?_⟩
  intro entity
  constructor
  · intro h
    have hlen := congrArg List.length h
    simp only [leafTypeChars, entityLower, List.length_map, List.length_take,
      List.length_append] at hlen
    have hq : "Query".length - 1 = 4 := by decide
    have hd : "Query".data.length = 5 := by decide
    rw [hq, hd] at hlen
    omega
  · intro h
    have hq : "Query".length - 1 = 4 := by decide
    simp only [leafTypeChars, entityLower, hq]
    rw [← h, List.take_left]

/-- C4.  Transpiling `UserQuery(range(1, 10)).count().to_cypher()`
through the embedded `CypherBuilderVisitor` (with the missing terminator
and clause assembly modelled from the spec) yields exactly the two-line
string of the spec and of `tests/test_cypher.py::test_count`. -/
theorem c4_to_cypher_count :
    to_cypher (CQuery.count (CQuery.leaf "UserQuery" [1, 2, 3, 4, 5, 6, 7, 8, 9]))
      = "MATCH (u:User)\nRETURN count(*)" := by
  decide

/-- C5 (counterexample).  The bare attribute reference `user.age` is not
of the form `<lhs> <op> <rhs>`, yet `WhereQueryable.__init__` accepts it:
construction succeeds (no error is raised at IR construction time). -/
theorem c5_where_accepts_non_cmp :
    (whereInit (PyExpr.fieldRef "age")).isSome = true
    ∧ (PyExpr.fieldRef "age").isCmpForm = false := by
  decide

/-- C5 (amended).  `WhereQueryable.__init__` accepts every well-formed
Python predicate expression — comparison-shaped or not — without error;
at execution `visit_where` simply filters the stream by the compiled
predicate's truthiness, so such expressions do not fail at execution
either. -/
theorem c5_where_amended (e : PyExpr) (items : List Entity) :
    (whereInit e).isSome = true
    ∧ visitWhereFunc (PyExpr.predicate e) items
        = items.filter (PyExpr.predicate e)
    ∧ (visitWhereFunc (PyExpr.predicate e) items).length ≤ items.length := by
  refine ⟨rfl, visitWhereFunc_eq_filter _ _, ?_⟩
  rw [visitWhereFunc_eq_filter]
  exact List.length_filter_le _ _

/-- C7.  Attribute writes on a `ViewModel`: `e.id = v` publishes `:id`
(and never a literal `id` key), `e._type = v` publishes `:type`, and
rebinding the visited-edges attribute updates the internal set while
leaving the key→value map entirely unchanged. -/
theorem c7_setattr_aliasing (s : VMState) (v : Val) (S : List String) :
    lookup (viewmodel_setattr s "id" v).map IDKEY = some v
    ∧ lookup (viewmodel_setattr s "id" v).map "id" = lookup s.map "id"
    ∧ lookup (viewmodel_setattr s "_type" v).map TYPE_KEY = some v
    ∧ lookup (viewmodel_setattr s "_type" v).map "_type" = lookup s.map "_type"
    ∧ (viewmodel_set_visited s S).map = s.map
    ∧ (viewmodel_set_visited s S).visitedEdges = S := by
  have hid : ∀ (e : Entity), viewmodel_setitem e "id" v = insertOD e IDKEY v := by
    intro e; simp [viewmodel_setitem]
  have hty : ∀ (e : Entity), viewmodel_setitem e "_type" v = insertOD e TYPE_KEY v := by
    intro e; simp [viewmodel_setitem]
  refine ⟨?_, ?_, ?_, ?_, ?_, rfl⟩
  · simp only [viewmodel_setattr, hid]
    exact lookup_insertOD_self _ _ _
  · simp only [viewmodel_setattr, hid]
    exact lookup_insertOD_ne _ _ _ _ (by decide)
  · simp only [viewmodel_setattr, hty]
    exact lookup_insertOD_self _ _ _
  · simp only [viewmodel_setattr, hty]
    exact lookup_insertOD_ne _ _ _ _ (by decide)
  · simp [viewmodel_set_visited, viewmodel_setitem, VISITED_EDGES_KEY]

theorem batchResolve_length (ids : List Int) (resolve_obj : Int → Option Entity) :
    (asListLeaf ids resolve_obj).length
      = ids.countP (fun i => truthyRes (resolve_obj i)) := by
  induction ids with
  | nil => rfl
  | cons i ids ih =>
    rw [List.countP_cons]
    simp only [asListLeaf, batchResolveObjs] at ih ⊢
    cases hri : resolve_obj i with
    | none => simp [truthyRes, hri, ih]
    | some e =>
      cases hie : e.isEmpty with
      | true => simp [truthyRes, hri, hie, ih]
      | false => simp [truthyRes, hri, hie, ih]

theorem countP_truthy_eq_sub (ids : List Int) (resolve_obj : Int → Option Entity) :
    ids.countP (fun i => truthyRes (resolve_obj i))
      = ids.length - ids.countP (fun i => !truthyRes (resolve_obj i)) := by
  induction ids with
  | nil => rfl
  | cons i ids ih =>
    rw [List.countP_cons, List.countP_cons, List.length_cons]
    have hle := List.countP_le_length
      (p := fun i => !truthyRes (resolve_obj i)) (l := ids)
    cases h : truthyRes (resolve_obj i) <;> simp [h, ih]
    omega

theorem batchResolve_mem (ids : List Int) (resolve_obj : Int → Option Entity)
    (i : Int) (hi : i ∈ ids) (e : Entity) (hre : resolve_obj i = some e)
    (hne : e.isEmpty = false) : e ∈ asListLeaf ids resolve_obj := by
  induction ids with
  | nil => cases hi
  | cons j ids ih =>
    simp only [asListLeaf, batchResolveObjs] at ih ⊢
    rcases List.mem_cons.1 hi with heq | hmem
    · rw [← heq, hre]
      simp [hne]
    · cases hrj : resolve_obj j with
      | none => exact ih hmem
      | some e' =>
        cases hje : e'.isEmpty with
        | true => simpa [hrj, hje] using ih hmem
        | false =>
          simp only [hrj, hje, Bool.false_eq_true, if_false, List.mem_cons]
          exact Or.inr (ih hmem)

/-- C8 (counterexample).  A resolver may return a falsy entity that is
not `None` — the empty map.  `batch_resolve_objs` filters with `if o`
(truthiness), so for `ids = [1]` and a resolver returning `{}` the
materialized list has length `0`, while the claim predicts
`len(ids) - #None = 1 - 0 = 1`. -/
theorem c8_empty_entity_trimmed :
    (asListLeaf [1] (fun _ => some ([] : Entity))).length = 0
    ∧ ([(1 : Int)].length
        - [(1 : Int)].countP (fun i => ((fun _ => some ([] : Entity)) i).isNone)) = 1
    ∧ (0 : Nat) ≠ 1 := by
  decide

/-- C8 (amended).  The materialized `as_list()` over `LeafQuery(ids)`
has length `len(ids)` minus the number of ids whose resolution is falsy
— `None` *or* an empty entity; every id with a truthy (non-empty)
resolution contributes its entity to the output. -/
theorem c8_as_list_length (ids : List Int) (resolve_obj : Int → Option Entity) :
    (asListLeaf ids resolve_obj).length
      = ids.length - ids.countP (fun i => !truthyRes (resolve_obj i))
    ∧ (asListLeaf ids resolve_obj).length
      = ids.countP (fun i => truthyRes (resolve_obj i))
    ∧ (∀ i ∈ ids, ∀ e, resolve_obj i = some e → e.isEmpty = false →
        e ∈ asListLeaf ids resolve_obj) :=
  ⟨(batchResolve_length ids resolve_obj).trans
      (countP_truthy_eq_sub ids resolve_obj),
   batchResolve_length ids resolve_obj,
   fun i hi e hre hne => batchResolve_mem ids resolve_obj i hi e hre hne⟩

/-- C8 (witness): the amended length law instantiated at `ids = [1, 2]`
with a resolver that resolves id 1 and returns `None` for id 2. -/
theorem c8_as_list_length_witness :
    (asListLeaf [1, 2] c8res).length
      = List.length [(1 : Int), 2]
        - List.countP (fun i => !truthyRes (c8res i)) [1, 2]
    ∧ (asListLeaf [1, 2] c8res).length
      = List.countP (fun i => truthyRes (c8res i)) [1, 2]
    ∧ (∀ i ∈ [(1 : Int), 2], ∀ e, c8res i = some e → e.isEmpty = false →
        e ∈ asListLeaf [1, 2] c8res) :=
  c8_as_list_length [1, 2] c8res

/-- C6.  `ViewModel` equality and hashing: when both entities carry
`:id`, they compare equal exactly when the `:id` values are equal,
regardless of other keys, and equal ids hash equal; when the left-hand
entity does not carry `:id`, equality is plain dict content equality. -/
theorem c6_viewmodel_eq (a b : Entity)
    (ha : (lookup a IDKEY).isSome) (hb : (lookup b IDKEY).isSome) :
    (viewModelEq a b = some true ↔ lookup a IDKEY = lookup b IDKEY)
    ∧ (lookup a IDKEY = lookup b IDKEY → viewModelHash a = viewModelHash b)
    ∧ (∀ c d : Entity, lookup c IDKEY = none →
        viewModelEq c d = some (viewModelEq.dictEqB c d)) := by
  obtain ⟨ia, hia⟩ := Option.isSome_iff_exists.1 ha
  obtain ⟨ib, hib⟩ := Option.isSome_iff_exists.1 hb
  refine ⟨?_, ?_, ?_⟩
  · rw [hia, hib]
    simp [viewModelEq, hia, hib]
  · intro h
    rw [hia, hib] at h
    simp only [viewModelHash, hia, hib]
    rw [Option.some_inj.1 h]
  · intro c d hc
    simp [viewModelEq, hc]

/-- C2 (counterexample).  Two entities with equal sort keys
(`age = 16`) arrive as `[{:id 2}, {:id 1}]`; the claim's
position tie-break predicts they are emitted in input order, but the
synchronous path of `visit_order_by` heapifies `(key, item)` pairs and
Python breaks the key tie with `ViewModel.__lt__` — the `:id` — so the
engine emits `[{:id 1}, {:id 2}]`. -/
theorem c2_sync_tiebreak_by_id :
    orderBySync
        [[(IDKEY, Val.vInt 2), ("age", Val.vInt 16)],
         [(IDKEY, Val.vInt 1), ("age", Val.vInt 16)]]
        (fun e => getIntField e "age")
      = [[(IDKEY, Val.vInt 1), ("age", Val.vInt 16)],
         [(IDKEY, Val.vInt 2), ("age", Val.vInt 16)]]
    ∧ orderBySync
        [[(IDKEY, Val.vInt 2), ("age", Val.vInt 16)],
         [(IDKEY, Val.vInt 1), ("age", Val.vInt 16)]]
        (fun e => getIntField e "age")
      ≠ [[(IDKEY, Val.vInt 2), ("age", Val.vInt 16)],
         [(IDKEY, Val.vInt 1), ("age", Val.vInt 16)]] := by
  decide

/-- C2 (amended).  `visit_order_by` materializes the whole upstream and
emits a permutation of it in non-decreasing key order; ties between
equal keys are broken by the items' `:id` order (`ViewModel.__lt__`) on
the synchronous path, and by original input position on the
asynchronous (await-twice) path. -/
theorem c2_order_by_amended (items : List Entity) (key : Entity → Int) :
    List.Perm (orderBySync items key) items
    ∧ (orderBySync items key).Pairwise (fun x y =>
        key x < key y ∨ (key x = key y ∧ entityId x ≤ entityId y))
    ∧ List.Perm (orderByAsync items key) items
    ∧ (heapDrain ltKeyPos (asyncPairs items key)).Pairwise (fun p q =>
        p.1 < q.1 ∨ (p.1 = q.1 ∧ p.2 ≤ q.2)) := by
  refine ⟨?_, ?_, ?_, ?_⟩
  · have hperm :=
      (heapDrain_perm ltKeyEntity (items.map (fun x => (key x, x)))).map Prod.snd
    have hmap : (items.map (fun x => (key x, x))).map Prod.snd = items := by
      rw [List.map_map,
        show (Prod.snd ∘ fun x : Entity => (key x, x)) = id from rfl,
        List.map_id]
    rw [orderBySync]
    refine hperm.trans ?_
    rw [hmap]
  · have hsor := heapDrain_sorted ltKeyEntity ltKeyEntity_irrefl
      ltKeyEntity_trans ltKeyEntity_negTrans (items.map (fun x => (key x, x)))
    have hmem : ∀ p ∈ heapDrain ltKeyEntity (items.map (fun x => (key x, x))),
        p.1 = key p.2 := by
      intro p hp
      have hp' := (heapDrain_perm ltKeyEntity
        (items.map (fun x => (key x, x)))).mem_iff.1 hp
      rcases List.mem_map.1 hp' with ⟨x, _, hx⟩
      rw [← hx]
    have h2 := hsor.imp_of_mem (fun {p q} hp hq h => by
      have hpk := hmem p hp
      have hqk := hmem q hq
      simp only [ltKeyEntity, Bool.or_eq_false_iff, Bool.and_eq_false_iff,
        decide_eq_false_iff_not, not_lt] at h
      show key p.2 < key q.2 ∨ (key p.2 = key q.2 ∧ entityId p.2 ≤ entityId q.2)
      rw [← hpk, ← hqk]
      omega)
    rw [orderBySync]
    exact List.pairwise_map.2 h2
  · have hperm := (heapDrain_perm ltKeyPos (asyncPairs items key)).map
      (fun p : Int × Nat => items.getD p.2 [])
    have hmap : (asyncPairs items key).map (fun p => items.getD p.2 [])
        = items := by
      rw [asyncPairs, List.map_map]
      have hcongr : ∀ p ∈ items.enum,
          ((fun p : Int × Nat => items.getD p.2 []) ∘
            (fun p : Nat × Entity => (key p.2, p.1))) p = p.2 := by
        intro p hp
        obtain ⟨i, x⟩ := p
        have hx : items[i]? = some x := List.mk_mem_enum_iff_getElem?.1 hp
        simp only [Function.comp]
        rw [List.getD_eq_getD_get?, List.get?_eq_getElem?, hx]
        rfl
      rw [List.map_congr_left hcongr, List.enum_map_snd]
    rw [orderByAsync]
    refine hperm.trans ?_
    rw [hmap]
  · have hsor := heapDrain_sorted ltKeyPos ltKeyPos_irrefl ltKeyPos_trans
      ltKeyPos_negTrans (asyncPairs items key)
    exact hsor.imp (fun {p q} h => by
      simp only [ltKeyPos, Bool.or_eq_false_iff, Bool.and_eq_false_iff,
        decide_eq_false_iff_not, not_lt] at h
      omega)

/-- C1.  Execution of a `UNION` node over the streams `[3, 1]` and `[2]`
(each sorted by descending `:id`): `visit_union` folds `union_dicts`
over the materialized per-stream dicts, which concatenates the lists
under the common key instead of calling the module's k-way
merge-dedup helper `union`, so the output is `[3, 1, 2]` — not the
descending merge `[3, 2, 1]` promised by the spec and by
`visit_union`'s own docstring ("Merge sort"); duplicates across streams
are likewise kept. -/
theorem c1_visit_union_concatenates :
    visitUnionModel [[[(IDKEY, Val.vInt 3)], [(IDKEY, Val.vInt 1)]],
                     [[(IDKEY, Val.vInt 2)]]]
      = [[(IDKEY, Val.vInt 3)], [(IDKEY, Val.vInt 1)], [(IDKEY, Val.vInt 2)]]
    ∧ mergeDescDedup [[(IDKEY, Val.vInt 3)], [(IDKEY, Val.vInt 1)]]
        [[(IDKEY, Val.vInt 2)]]
      = [[(IDKEY, Val.vInt 3)], [(IDKEY, Val.vInt 2)], [(IDKEY, Val.vInt 1)]]
    ∧ visitUnionModel [[[(IDKEY, Val.vInt 3)], [(IDKEY, Val.vInt 1)]],
                       [[(IDKEY, Val.vInt 2)]]]
      ≠ mergeDescDedup [[(IDKEY, Val.vInt 3)], [(IDKEY, Val.vInt 1)]]
          [[(IDKEY, Val.vInt 2)]]
    ∧ visitUnionModel [[[(IDKEY, Val.vInt 2)]], [[(IDKEY, Val.vInt 2)]]]
      = [[(IDKEY, Val.vInt 2)], [(IDKEY, Val.vInt 2)]] := by
  decide

/-- C6 (witness): two entities sharing `:id = 1` but differing in other
keys compare equal and hash alike; an id-less entity falls back to dict
equality. -/
theorem c6_viewmodel_eq_witness :
    (viewModelEq [(IDKEY, Val.vInt 1), ("x", Val.vInt 5)] [(IDKEY, Val.vInt 1)]
        = some true
      ↔ lookup [(IDKEY, Val.vInt 1), ("x", Val.vInt 5)] IDKEY
        = lookup [(IDKEY, Val.vInt 1)] IDKEY)
    ∧ (lookup [(IDKEY, Val.vInt 1), ("x", Val.vInt 5)] IDKEY
        = lookup [(IDKEY, Val.vInt 1)] IDKEY →
       viewModelHash [(IDKEY, Val.vInt 1), ("x", Val.vInt 5)]
        = viewModelHash [(IDKEY, Val.vInt 1)])
    ∧ (∀ c d : Entity, lookup c IDKEY = none →
        viewModelEq c d = some (viewModelEq.dictEqB c d)) :=
  c6_viewmodel_eq [(IDKEY, Val.vInt 1), ("x", Val.vInt 5)] [(IDKEY, Val.vInt 1)]
    (by decide) (by decide)

end FQuery
